import Mathlib

/-!
Shallow embedding of the `logbuf` package (log aggregation/streaming buffer):
record codec (`Data` JSON lines with millisecond `UnixTime`), the fanout
registry (`AddListener` / `RemoveListener` / `sendData`), the aggregate
operations (`NewLog`, `Write`, `Follow`/`watch`, `Close`) and the history
reader (`Read` with its backward 512-byte block scan).

Bytes and Unicode scalar values are modelled as `Nat`; channels are `Nat`
identifiers; machine integers are `Int`; file contents are `List Nat`.
-/

namespace Logbuf

/-- A log record (`Data` struct): stream id, timestamp in nanoseconds
(`time.Time` as `UnixNano`), message content as a list of Unicode scalar
values. -/
structure Data where
  stream : Int
  timestamp : Int
  message : List Nat
deriving DecidableEq, Repr

/-! ## Record codec

`json.NewEncoder(w).Encode(data)` writes `{"s":<int>,"t":<millis>,"m":"<escaped>"}`
followed by a newline; `UnixTime.MarshalJSON` emits `UnixNano()/1e6` and
`UnmarshalJSON` reads back `time.Unix(0, i*1e6)`. The Go encoder escapes
`"`, `\`, `\n`, `\r`, `\t` with two-character escapes, other control
characters, `<`, `>`, `&`, U+2028 and U+2029 as `\uXXXX` (lowercase hex),
and passes every other scalar value through. -/

/-- Lowercase hexadecimal digit character for a value below 16. -/
def hexDig (n : Nat) : Nat := if n < 10 then n + 48 else n + 87

/-- Four lowercase hex digit characters of a value below 0x10000. -/
def hex4 (n : Nat) : List Nat :=
  [hexDig (n / 4096 % 16), hexDig (n / 256 % 16), hexDig (n / 16 % 16), hexDig (n % 16)]

/-- JSON escaping of one scalar value, as Go `encoding/json` (with its
default HTML escaping) performs it. -/
def escRune (c : Nat) : List Nat :=
  if c = 34 then [92, 34]
  else if c = 92 then [92, 92]
  else if c = 10 then [92, 110]
  else if c = 13 then [92, 114]
  else if c = 9 then [92, 116]
  else if c < 32 ∨ c = 60 ∨ c = 62 ∨ c = 38 ∨ c = 8232 ∨ c = 8233 then
    92 :: 117 :: hex4 c
  else [c]

/-- Little-endian base-10 digits of a natural number, with explicit fuel
(one unit per digit; `fuel ≥ n` is always enough). -/
def natDigitsAux : Nat → Nat → List Nat
  | 0, _ => []
  | fuel + 1, n => if n = 0 then [] else n % 10 :: natDigitsAux fuel (n / 10)

/-- Decimal digit characters of a natural number (as `strconv`). -/
def natChars (n : Nat) : List Nat :=
  if n = 0 then [48] else ((natDigitsAux n n).reverse).map (· + 48)

/-- Decimal representation of an integer, with a leading minus sign when
negative (as `strconv.AppendInt`). -/
def encInt (i : Int) : List Nat :=
  if i < 0 then 45 :: natChars i.natAbs else natChars i.natAbs

/-- `UnixTime.MarshalJSON`: nanoseconds divided by 1e6 with Go's
truncated division. -/
def tsMillis (t : Int) : Int := t.tdiv 1000000

/-- The encoded line for a record, newline included: exactly the bytes
`json.NewEncoder(l.l).Encode(data)` appends to the sink. -/
def encodeLine (d : Data) : List Nat :=
  [123, 34, 115, 34, 58] ++ encInt d.stream ++
  [44, 34, 116, 34, 58] ++ encInt (tsMillis d.timestamp) ++
  [44, 34, 109, 34, 58, 34] ++ (d.message.map escRune).flatten ++
  [34, 125, 10]

/-- Value of a hex digit character, if it is one. -/
def hexVal (c : Nat) : Option Nat :=
  if 48 ≤ c ∧ c ≤ 57 then some (c - 48)
  else if 97 ≤ c ∧ c ≤ 102 then some (c - 87)
  else if 65 ≤ c ∧ c ≤ 70 then some (c - 55)
  else none

/-- The value of a two-character JSON escape (`\x` for `x` here). -/
def escMap (e : Nat) : Option Nat :=
  if e = 34 then some 34
  else if e = 92 then some 92
  else if e = 47 then some 47
  else if e = 98 then some 8
  else if e = 102 then some 12
  else if e = 110 then some 10
  else if e = 114 then some 13
  else if e = 116 then some 9
  else none

/-- JSON string body parser: consumes scalar values and escapes up to and
including the closing quote, returning the decoded content and the rest of
the input. -/
def parseStr : List Nat → Option (List Nat × List Nat)
  | [] => none
  | c :: rest =>
    if c = 34 then some ([], rest)
    else if c = 92 then
      match rest with
      | [] => none
      | e :: rest2 =>
        if e = 117 then
          match rest2 with
          | a :: b :: c2 :: d2 :: rest3 =>
            match hexVal a, hexVal b, hexVal c2, hexVal d2 with
            | some x, some y, some z, some w =>
              match parseStr rest3 with
              | some (s, r) => some ((((x * 16 + y) * 16 + z) * 16 + w) :: s, r)
              | none => none
            | _, _, _, _ => none
          | _ => none
        else
          match escMap e with
          | some v =>
            match parseStr rest2 with
            | some (s, r) => some (v :: s, r)
            | none => none
          | none => none
    else
      match parseStr rest with
      | some (s, r) => some (c :: s, r)
      | none => none

/-- Is `c` a decimal digit character? -/
def isDigitCh (c : Nat) : Bool := decide (48 ≤ c ∧ c ≤ 57)

/-- Numeric value of a big-endian list of digit characters. -/
def natVal (ds : List Nat) : Nat := ds.foldl (fun a c => a * 10 + (c - 48)) 0

/-- Parse a nonempty run of decimal digits. -/
def parseNatPart (l : List Nat) : Option (Nat × List Nat) :=
  let ds := l.takeWhile isDigitCh
  if ds = [] then none else some (natVal ds, l.dropWhile isDigitCh)

/-- Parse a decimal integer with optional leading minus sign. -/
def parseInt (l : List Nat) : Option (Int × List Nat) :=
  match l with
  | [] => none
  | c :: rest =>
    if c = 45 then
      match parseNatPart rest with
      | some (n, r) => some (-(n : Int), r)
      | none => none
    else
      match parseNatPart (c :: rest) with
      | some (n, r) => some ((n : Int), r)
      | none => none

/-- Consume an exact literal from the front of the input. -/
def dropLit : List Nat → List Nat → Option (List Nat)
  | [], l => some l
  | _ :: _, [] => none
  | p :: ps, c :: cs => if c = p then dropLit ps cs else none

/-- Decoder for one encoded line (the canonical form produced by
`encodeLine`): `json.Unmarshal` of the line into a `Data`, including
`UnixTime.UnmarshalJSON` turning the millisecond integer back into
nanoseconds. Trailing content other than `}` plus an optional newline is
rejected. -/
def decodeLine (bs : List Nat) : Option Data :=
  match dropLit [123, 34, 115, 34, 58] bs with
  | none => none
  | some r1 =>
    match parseInt r1 with
    | none => none
    | some (s, r2) =>
      match dropLit [44, 34, 116, 34, 58] r2 with
      | none => none
      | some r3 =>
        match parseInt r3 with
        | none => none
        | some (t, r4) =>
          match dropLit [44, 34, 109, 34, 58, 34] r4 with
          | none => none
          | some r5 =>
            match parseStr r5 with
            | none => none
            | some (msg, r6) =>
              if r6 = [125] ∨ r6 = [125, 10] then
                some ⟨s, t * 1000000, msg⟩
              else none

/-- The record as it survives an encode/decode round trip: timestamp
truncated to millisecond precision. -/
def truncRec (d : Data) : Data :=
  ⟨d.stream, d.timestamp.tdiv 1000000 * 1000000, d.message⟩

/-! ## Fanout registry and log aggregate

`Log.listeners` is `map[int]map[chan Data]struct{}`: modelled as a list of
(key, channel) registrations with set semantics per pair; channels are
`Nat` identifiers. The rotating sink is modelled by the byte contents
appended so far plus a closed flag; `lumberjack.Logger` by its `MaxSize`
field (the only one `NewLog` inspects). -/

/-- The vendored `lumberjack.Logger` sink configuration, reduced to the
field `NewLog` reads and writes. -/
structure Lumberjack where
  maxSize : Int
deriving DecidableEq, Repr

/-- Modelled from the spec: the vendored lumberjack package (absent from
the sources; only its use in `NewLog` is) sizes files in megabytes, so
`lumberjack.Megabyte` is 1024 * 1024 bytes and `100 * Megabyte` is the
"100 megabytes" default maximum size the spec describes. -/
def lumberjackMegabyte : Int := 1024 * 1024

/-- The state of a `Log` aggregate: sink max size, listener registrations,
sink byte contents, sink closed flag. -/
structure LogState where
  maxSize : Int
  listeners : List (Int × Nat)
  file : List Nat
  sinkClosed : Bool
deriving DecidableEq, Repr

/-- `NewLog`: substitutes a fresh zero-valued logger for nil and defaults
`MaxSize` to `100 * lumberjack.Megabyte` when it is zero. -/
def NewLog (l? : Option Lumberjack) : LogState :=
  let l : Lumberjack := match l? with
    | none => ⟨0⟩
    | some l0 => l0
  let l2 := if l.maxSize = 0 then { l with maxSize := 100 * lumberjackMegabyte } else l
  { maxSize := l2.maxSize, listeners := [], file := [], sinkClosed := false }

/-- `Log.AddListener`: registers the channel under the key (map-of-sets
semantics: re-adding an existing registration is a no-op). -/
def addListener (stream : Int) (ch : Nat) (st : LogState) : LogState :=
  if (stream, ch) ∈ st.listeners then st
  else { st with listeners := st.listeners ++ [(stream, ch)] }

/-- `Log.RemoveListener`: deletes the registration; a no-op if absent. -/
def removeListener (stream : Int) (ch : Nat) (st : LogState) : LogState :=
  { st with listeners := st.listeners.filter (fun p => decide (p ≠ (stream, ch))) }

/-- The channels registered under one key. -/
def chansOf (reg : List (Int × Nat)) (k : Int) : List Nat :=
  reg.filterMap fun p => if p.1 = k then some p.2 else none

/-- `Log.sendData`: the channels a broadcast record is sent to — every
channel under the wildcard key -1, then every channel under the record's
stream key. -/
def sendData (reg : List (Int × Nat)) (d : Data) : List Nat :=
  chansOf reg (-1) ++ chansOf reg d.stream

/-- `Log.Write`: appends one encoded line to the sink; returns the new
state and the (empty) list of channels the record was delivered to. -/
def writeOp (d : Data) (st : LogState) : LogState × List Nat :=
  ({ st with file := st.file ++ encodeLine d }, [])

/-- The registration `Log.watch(stream)` performs before its receive loop:
`AddListener(stream, ch)` on a fresh channel. -/
def watchStart (stream : Int) (ch : Nat) (st : LogState) : LogState :=
  addListener stream ch st

/-- The effect of `Log.watch`'s receive loop on the sink: each record
received on its channel, in order, is appended via `Write`. -/
def watchRun (ds : List Data) (st : LogState) : LogState :=
  ds.foldl (fun s d => (writeOp d s).1) st

/-- The records `Log.Follow(stream, r)` broadcasts, given the chunks the
reader successively returns (each at most the 32 KiB buffer) and the clock
value at each iteration: every non-empty chunk becomes one record with
that chunk as message, stamped with the current time. -/
def followRecs (stream : Int) (clock : Nat → Int) : Nat → List (List Nat) → List Data
  | _, [] => []
  | i, c :: rest =>
    (if c = [] then [] else [⟨stream, clock i, c⟩]) ++ followRecs stream clock (i + 1) rest

/-- `Log.Close`: closes every channel of every registration (one close per
registration, in registry order) and closes the sink; the returned list
holds the closed channels with multiplicity. -/
def closeLog (st : LogState) : LogState × List Nat :=
  ({ st with sinkClosed := true }, st.listeners.map (·.2))

/-! ## History reader (`Log.Read`)

`Read(lines, ch)` opens the sink's current file (absent file: close the
channel, done). For `lines ≠ 0` it block-scans backward: starting at
`pos = size - 512` (clamped at 0), it reads the 512 bytes at `pos`, adds
their newline count to a running count, and either (a) on reaching
`lines + 1` skips forward past `count - (lines+1) + 1` newlines inside the
current block and seeks there, (b) stops at `pos = 0`, or (c) steps back
one block. It then parses lines forward to end of file, sending each
decoded record, and closes the channel; a decode failure returns the error
with the channel left open. -/

/-- Number of newline bytes in a block. -/
def countNl (l : List Nat) : Nat := l.countP (fun c => decide (c = 10))

/-- One `lastpos += bytes.Index(buf[lastpos:], "\n") + 1` step: Go's
`Index` returns -1 when absent, making the step a no-op. -/
def idxNlP1 (l : List Nat) : Nat :=
  match l.findIdx? (fun c => decide (c = 10)) with
  | some i => i + 1
  | none => 0

/-- `n` skip steps of the newline-skipping loop inside the found block. -/
def skipNls (chunk : List Nat) : Nat → Nat → Nat
  | 0, lastpos => lastpos
  | n + 1, lastpos => skipNls chunk n (lastpos + idxNlP1 (chunk.drop lastpos))

/-- The backward block scan: returns the byte offset to read forward from,
or `none` for the read-error path (empty read at the candidate position).
`pos` is already clamped at 0; fuel is one unit per block step. -/
def scanBackAux (file : List Nat) (lines : Nat) : Nat → Nat → Nat → Option Nat
  | 0, _, _ => none
  | fuel + 1, pos, count =>
    let chunk := (file.drop pos).take 512
    if chunk = [] then none
    else
      let count2 := count + countNl chunk
      if lines + 1 ≤ count2 then
        some (pos + skipNls chunk (count2 - (lines + 1) + 1) 0)
      else if pos = 0 then some 0
      else scanBackAux file lines fuel (pos - 512) count2

/-- The full backward scan from `size - 512` with zero running count. -/
def scanBack (file : List Nat) (lines : Nat) : Option Nat :=
  scanBackAux file lines (file.length / 512 + 2) (file.length - 512) 0

/-- `bufio.Reader.ReadBytes('\n')`: the first line (newline included; the
whole input when it has no newline) and the remaining input. -/
def splitLine : List Nat → List Nat × List Nat
  | [] => ([], [])
  | c :: rest =>
    if c = 10 then ([10], rest)
    else
      let p := splitLine rest
      (c :: p.1, p.2)

/-- Outcome of a `Read` call: the records delivered to the channel in
order, whether the channel was closed, and whether the call returned
without error. -/
structure ReadResult where
  delivered : List Data
  closed : Bool
  ok : Bool
deriving DecidableEq, Repr

/-- The forward parse loop of `Read`: split off one line at a time, decode
it and deliver the record; a decode failure aborts with the error and
without closing the channel; end of input closes the channel. -/
def parseLinesAux : Nat → List Nat → List Data → ReadResult
  | _, [], acc => ⟨acc.reverse, true, true⟩
  | 0, _ :: _, acc => ⟨acc.reverse, false, false⟩
  | fuel + 1, c :: rest, acc =>
    let p := splitLine (c :: rest)
    match decodeLine p.1 with
    | some d => parseLinesAux fuel p.2 (d :: acc)
    | none => ⟨acc.reverse, false, false⟩

/-- `Log.Read(lines, ch)` on a file with the given contents (`none` when
the sink has not created a file yet). -/
def readLog (lines : Nat) (file? : Option (List Nat)) : ReadResult :=
  match file? with
  | none => ⟨[], true, true⟩
  | some file =>
    if lines = 0 then parseLinesAux (file.length + 1) file []
    else
      match scanBack file lines with
      | none => ⟨[], false, false⟩
      | some start => parseLinesAux (file.length + 1) (file.drop start) []

/-- Encoded file contents of a list of persisted records. -/
def encodeAll (rs : List Data) : List Nat := (rs.map encodeLine).flatten

/-! ## Codec round-trip lemmas -/

theorem natDigitsAux_eq (fuel n : Nat) (h : n ≤ fuel) :
    natDigitsAux fuel n = Nat.digits 10 n := by
  induction fuel generalizing n with
  | zero =>
    interval_cases n
    simp [natDigitsAux]
  | succ fuel ih =>
    by_cases hn : n = 0
    · simp [natDigitsAux, hn]
    · rw [natDigitsAux, if_neg hn, Nat.digits_def' (by norm_num) (Nat.pos_of_ne_zero hn),
        ih (n / 10) (by omega)]

theorem natChars_digits (n : Nat) : ∀ c ∈ natChars n, 48 ≤ c ∧ c ≤ 57 := by
  intro c hc
  unfold natChars at hc
  split at hc
  · simp at hc
    omega
  · next hn =>
    rw [natDigitsAux_eq n n le_rfl] at hc
    simp only [List.mem_map, List.mem_reverse] at hc
    obtain ⟨d, hd, rfl⟩ := hc
    have := Nat.digits_lt_base (by norm_num) hd
    omega

theorem natChars_ne_nil (n : Nat) : natChars n ≠ [] := by
  unfold natChars
  split
  · simp
  · next hn =>
    rw [natDigitsAux_eq n n le_rfl]
    simp [Nat.digits_ne_nil_iff_ne_zero, hn]

theorem takeWhile_all_append (p : Nat → Bool) (l1 l2 : List Nat)
    (h1 : ∀ x ∈ l1, p x = true) (h2 : ∀ c, l2.head? = some c → p c = false) :
    (l1 ++ l2).takeWhile p = l1 ∧ (l1 ++ l2).dropWhile p = l2 := by
  induction l1 with
  | nil =>
    simp only [List.nil_append]
    cases l2 with
    | nil => simp
    | cons c t =>
      have := h2 c rfl
      simp [List.takeWhile, List.dropWhile, this]
  | cons a t ih =>
    have ha : p a = true := h1 a (by simp)
    have iht := ih (fun x hx => h1 x (by simp [hx]))
    simp [List.takeWhile, List.dropWhile, ha, iht.1, iht.2]

theorem foldl_digit_val (L : List Nat) (acc : Nat) :
    (L.reverse).foldl (fun a d => a * 10 + d) acc =
      acc * 10 ^ L.length + Nat.ofDigits 10 L := by
  induction L generalizing acc with
  | nil => simp
  | cons d t ih =>
    simp only [List.reverse_cons, List.foldl_append, List.foldl_cons, List.foldl_nil,
      Nat.ofDigits_cons, List.length_cons, ih]
    ring

theorem natVal_natChars (n : Nat) : natVal (natChars n) = n := by
  unfold natVal natChars
  split
  · next hn => simp [hn]
  · next hn =>
    rw [natDigitsAux_eq n n le_rfl, List.foldl_map]
    simp only [Nat.add_sub_cancel]
    rw [foldl_digit_val]
    simpa using Nat.ofDigits_digits 10 n

/-- `none` or a head that is not a decimal digit. -/
def headNotDigit (l : List Nat) : Prop :=
  ∀ c, l.head? = some c → isDigitCh c = false

theorem parseNatPart_enc (n : Nat) (rest : List Nat) (h : headNotDigit rest) :
    parseNatPart (natChars n ++ rest) = some (n, rest) := by
  have hall : ∀ x ∈ natChars n, isDigitCh x = true := by
    intro x hx
    have := natChars_digits n x hx
    simp [isDigitCh]
    omega
  have hsplit := takeWhile_all_append isDigitCh (natChars n) rest hall h
  rw [parseNatPart]
  simp only [hsplit.1, hsplit.2]
  rw [if_neg (natChars_ne_nil n), natVal_natChars]

theorem parseInt_enc (i : Int) (rest : List Nat) (h : headNotDigit rest) :
    parseInt (encInt i ++ rest) = some (i, rest) := by
  unfold encInt
  split
  · next hneg =>
    rw [List.cons_append, parseInt, if_pos rfl, parseNatPart_enc i.natAbs rest h]
    have habs : ((i.natAbs : Int)) = -i := by omega
    simp [habs]
  · next hpos =>
    have hne := natChars_ne_nil i.natAbs
    obtain ⟨c, t, hct⟩ : ∃ c t, natChars i.natAbs = c :: t := by
      cases hcn : natChars i.natAbs with
      | nil => exact absurd hcn hne
      | cons c t => exact ⟨c, t, rfl⟩
    have hdig : 48 ≤ c ∧ c ≤ 57 := natChars_digits i.natAbs c (by rw [hct]; simp)
    rw [hct, List.cons_append, parseInt, if_neg (by omega), ← List.cons_append, ← hct,
      parseNatPart_enc i.natAbs rest h]
    simp
    omega

theorem hexVal_hexDig (d : Nat) (h : d < 16) : hexVal (hexDig d) = some d := by
  unfold hexVal hexDig
  split_ifs <;> simp_all <;> omega

theorem parseStr_esc (c : Nat) (rest : List Nat) :
    parseStr (escRune c ++ rest) = (parseStr rest).map fun p => (c :: p.1, p.2) := by
  unfold escRune
  split_ifs with h1 h2 h3 h4 h5 h6
  · subst h1
    rw [List.cons_append, List.cons_append, List.nil_append, parseStr.eq_def]
    simp [escMap]
    cases parseStr rest <;> simp
  · subst h2
    rw [List.cons_append, List.cons_append, List.nil_append, parseStr.eq_def]
    simp [escMap]
    cases parseStr rest <;> simp
  · subst h3
    rw [List.cons_append, List.cons_append, List.nil_append, parseStr.eq_def]
    simp [escMap]
    cases parseStr rest <;> simp
  · subst h4
    rw [List.cons_append, List.cons_append, List.nil_append, parseStr.eq_def]
    simp [escMap]
    cases parseStr rest <;> simp
  · subst h5
    rw [List.cons_append, List.cons_append, List.nil_append, parseStr.eq_def]
    simp [escMap]
    cases parseStr rest <;> simp
  · have hc16 : c < 65536 := by omega
    simp only [hex4, List.cons_append, List.nil_append]
    rw [parseStr.eq_def]
    simp only [hexVal_hexDig _ (Nat.mod_lt _ (by norm_num))]
    have harith : ((c / 4096 % 16 * 16 + c / 256 % 16) * 16 + c / 16 % 16) * 16 + c % 16 = c := by
      omega
    simp only [harith]
    simp
    cases parseStr rest <;> simp
  · rw [List.cons_append, List.nil_append, parseStr.eq_def]
    simp [h1, h2]
    cases parseStr rest <;> simp

theorem parseStr_msg (msg : List Nat) (rest : List Nat) :
    parseStr ((msg.map escRune).flatten ++ 34 :: rest) = some (msg, rest) := by
  induction msg with
  | nil =>
    rw [List.map_nil, List.flatten_nil, List.nil_append, parseStr.eq_def]
    simp
  | cons c t ih =>
    rw [List.map_cons, List.flatten_cons, List.append_assoc, parseStr_esc, ih]
    simp

theorem dropLit_pre (pat rest : List Nat) : dropLit pat (pat ++ rest) = some rest := by
  induction pat with
  | nil => simp [dropLit]
  | cons p t ih => simp [dropLit, ih]

theorem headNotDigit_ofHead (c : Nat) (l : List Nat) (h : isDigitCh c = false) :
    headNotDigit (c :: l) := by
  intro x hx
  simp at hx
  rwa [hx] at h

theorem decode_encode (d : Data) : decodeLine (encodeLine d) = some (truncRec d) := by
  have hmsg : parseStr ((d.message.map escRune).flatten ++ [34, 125, 10]) =
      some (d.message, [125, 10]) := parseStr_msg d.message [125, 10]
  have h2 : parseInt (encInt (tsMillis d.timestamp) ++
      ([44, 34, 109, 34, 58, 34] ++ ((d.message.map escRune).flatten ++ [34, 125, 10]))) =
      some (tsMillis d.timestamp,
        [44, 34, 109, 34, 58, 34] ++ ((d.message.map escRune).flatten ++ [34, 125, 10])) :=
    parseInt_enc _ _ (headNotDigit_ofHead 44 _ (by simp [isDigitCh]))
  have h1 : parseInt (encInt d.stream ++ ([44, 34, 116, 34, 58] ++
      (encInt (tsMillis d.timestamp) ++ ([44, 34, 109, 34, 58, 34] ++
        ((d.message.map escRune).flatten ++ [34, 125, 10]))))) =
      some (d.stream, [44, 34, 116, 34, 58] ++
        (encInt (tsMillis d.timestamp) ++ ([44, 34, 109, 34, 58, 34] ++
          ((d.message.map escRune).flatten ++ [34, 125, 10])))) :=
    parseInt_enc _ _ (headNotDigit_ofHead 44 _ (by simp [isDigitCh]))
  unfold decodeLine encodeLine
  simp only [List.append_assoc, dropLit_pre, h1, h2, hmsg]
  simp [truncRec, tsMillis]

/-! ## Line structure: encoded lines contain exactly one newline, at the end -/

/-- The encoded line without its terminating newline. -/
def lineBody (d : Data) : List Nat :=
  [123, 34, 115, 34, 58] ++ encInt d.stream ++
  [44, 34, 116, 34, 58] ++ encInt (tsMillis d.timestamp) ++
  [44, 34, 109, 34, 58, 34] ++ (d.message.map escRune).flatten ++
  [34, 125]

theorem encodeLine_decomp (d : Data) : encodeLine d = lineBody d ++ [10] := by
  unfold encodeLine lineBody
  simp

theorem escRune_no_nl (c x : Nat) (hx : x ∈ escRune c) : x ≠ 10 := by
  unfold escRune at hx
  split_ifs at hx with h1 h2 h3 h4 h5 h6
  · simp at hx; omega
  · simp at hx; omega
  · simp at hx; omega
  · simp at hx; omega
  · simp at hx; omega
  · simp [hex4, hexDig] at hx
    rcases hx with hx | hx | hx | hx | hx | hx <;> first
      | omega
      | (split_ifs at hx <;> omega)
  · simp at hx
    omega

theorem natChars_no_nl (n x : Nat) (hx : x ∈ natChars n) : x ≠ 10 := by
  have := natChars_digits n x hx
  omega

theorem encInt_no_nl (i : Int) (x : Nat) (hx : x ∈ encInt i) : x ≠ 10 := by
  unfold encInt at hx
  split_ifs at hx
  · simp at hx
    rcases hx with hx | hx
    · omega
    · exact natChars_no_nl _ _ hx
  · exact natChars_no_nl _ _ hx

theorem lineBody_no_nl (d : Data) : (10 : Nat) ∉ lineBody d := by
  intro hmem
  unfold lineBody at hmem
  simp only [List.append_assoc, List.mem_append, List.mem_cons, List.mem_flatten,
    List.mem_map] at hmem
  rcases hmem with h | h | h | h | h | h | h
  · simp at h
  · exact encInt_no_nl _ _ h rfl
  · simp at h
  · exact encInt_no_nl _ _ h rfl
  · simp at h
  · obtain ⟨l, ⟨c, _, rfl⟩, hl⟩ := h
    exact escRune_no_nl c 10 hl rfl
  · simp at h

theorem splitLine_append (body rest : List Nat) (h : (10 : Nat) ∉ body) :
    splitLine (body ++ 10 :: rest) = (body ++ [10], rest) := by
  induction body with
  | nil => simp [splitLine]
  | cons c t ih =>
    have hc : c ≠ 10 := by
      intro hc
      exact h (by simp [hc])
    have iht := ih (fun hm => h (by simp [hm]))
    simp [List.cons_append, splitLine, hc, iht]

theorem splitLine_no_nl (bs : List Nat) (h : (10 : Nat) ∉ bs) :
    splitLine bs = (bs, []) := by
  induction bs with
  | nil => simp [splitLine]
  | cons c t ih =>
    have hc : c ≠ 10 := by
      intro hc
      exact h (by simp [hc])
    have iht := ih (fun hm => h (by simp [hm]))
    simp only [splitLine, if_neg hc, iht]

theorem encodeLine_ne_nil (d : Data) : encodeLine d ≠ [] := by
  rw [encodeLine_decomp]
  simp

theorem countNl_encodeLine (d : Data) : countNl (encodeLine d) = 1 := by
  rw [encodeLine_decomp]
  unfold countNl
  rw [List.countP_append]
  have h0 : (lineBody d).countP (fun c => decide (c = 10)) = 0 := by
    rw [List.countP_eq_zero]
    intro a ha
    simp only [decide_eq_true_eq]
    intro hc
    exact lineBody_no_nl d (hc ▸ ha)
  simp [h0]

/-! ## The forward parse loop on well-formed content -/

theorem length_encodeAll_ge (rs : List Data) : rs.length ≤ (encodeAll rs).length := by
  induction rs with
  | nil => simp [encodeAll]
  | cons r t ih =>
    have h1 : 1 ≤ (encodeLine r).length := by
      cases hr : encodeLine r with
      | nil => exact absurd hr (encodeLine_ne_nil r)
      | cons a l => simp
    simp only [encodeAll, List.map_cons, List.flatten_cons, List.length_append,
      List.length_cons] at ih ⊢
    omega

theorem parseLinesAux_encodeAll (rs : List Data) (fuel : Nat) (acc : List Data)
    (tail : List Nat) (h : rs.length < fuel) :
    parseLinesAux fuel (encodeAll rs ++ tail) acc =
      parseLinesAux (fuel - rs.length) tail ((rs.map truncRec).reverse ++ acc) := by
  induction rs generalizing fuel acc with
  | nil => simp [encodeAll]
  | cons r t ih =>
    obtain ⟨f, rfl⟩ : ∃ f, fuel = f + 1 := ⟨fuel - 1, by omega⟩
    have hsplit : splitLine (lineBody r ++ 10 :: (encodeAll t ++ tail)) =
        (lineBody r ++ [10], encodeAll t ++ tail) :=
      splitLine_append _ _ (lineBody_no_nl r)
    have hbs : encodeAll (r :: t) ++ tail = lineBody r ++ 10 :: (encodeAll t ++ tail) := by
      simp [encodeAll, encodeLine_decomp r]
    obtain ⟨c, bs, hcons⟩ : ∃ c bs, lineBody r ++ 10 :: (encodeAll t ++ tail) = c :: bs := by
      cases hl : lineBody r with
      | nil => exact ⟨10, encodeAll t ++ tail, by simp⟩
      | cons a l => exact ⟨a, l ++ 10 :: (encodeAll t ++ tail), by simp⟩
    rw [hbs, hcons, parseLinesAux, ← hcons, hsplit]
    simp only [← encodeLine_decomp r, decode_encode r]
    rw [ih f (truncRec r :: acc) (by simp at h; omega)]
    simp only [List.map_cons, List.reverse_cons, List.append_assoc, List.cons_append,
      List.nil_append, List.length_cons]
    congr 1
    omega

/-! ## Aggregate-level lemmas -/

theorem watchRun_file (ds : List Data) (st : LogState) :
    (watchRun ds st).file = st.file ++ encodeAll ds := by
  induction ds generalizing st with
  | nil => simp [watchRun, encodeAll]
  | cons d t ih =>
    simp only [watchRun, List.foldl_cons] at ih ⊢
    rw [ih]
    simp [writeOp, encodeAll]

theorem NewLog_listeners (l? : Option Lumberjack) : (NewLog l?).listeners = [] := rfl

theorem watchStart_mem (s : Int) (ch : Nat) (st : LogState) :
    (s, ch) ∈ (watchStart s ch st).listeners := by
  unfold watchStart addListener
  split_ifs with h
  · exact h
  · simp

theorem followRecs_messages (s : Int) (clock : Nat → Int) (i : Nat)
    (chunks : List (List Nat)) :
    (followRecs s clock i chunks).map Data.message =
      chunks.filter (fun c => decide (c ≠ [])) := by
  induction chunks generalizing i with
  | nil => simp [followRecs]
  | cons c t ih =>
    by_cases hc : c = []
    · subst hc
      simp [followRecs, ih]
    · simp [followRecs, hc, ih]

theorem flatten_filter_ne_nil (L : List (List Nat)) :
    (L.filter (fun c => decide (c ≠ []))).flatten = L.flatten := by
  induction L with
  | nil => rfl
  | cons c t ih => by_cases hc : c = [] <;> simp [hc] <;> simpa using ih

theorem followRecs_head_ts (s : Int) (clock : Nat → Int) (chunks : List (List Nat))
    (i : Nat) (d : Data) (h : (followRecs s clock i chunks).head? = some d) :
    ∃ j, i ≤ j ∧ d.timestamp = clock j := by
  induction chunks generalizing i with
  | nil => simp [followRecs] at h
  | cons c t ih =>
    by_cases hc : c = []
    · subst hc
      rw [followRecs] at h
      simp only [if_pos rfl, List.nil_append] at h
      obtain ⟨j, hj, hd⟩ := ih (i + 1) h
      exact ⟨j, by omega, hd⟩
    · rw [followRecs] at h
      simp only [if_neg hc, List.cons_append, List.nil_append, List.head?_cons,
        Option.some.injEq] at h
      exact ⟨i, le_rfl, by rw [← h]⟩

theorem followRecs_chain (s : Int) (clock : Nat → Int)
    (hmono : ∀ i j : Nat, i ≤ j → clock i ≤ clock j) (chunks : List (List Nat)) (i : Nat) :
    List.Chain' (fun a b => a.timestamp ≤ b.timestamp) (followRecs s clock i chunks) := by
  induction chunks generalizing i with
  | nil => simp [followRecs]
  | cons c t ih =>
    by_cases hc : c = []
    · subst hc
      rw [followRecs]
      simp only [if_pos rfl, List.nil_append]
      exact ih (i + 1)
    · rw [followRecs]
      simp only [if_neg hc, List.cons_append, List.nil_append]
      rw [List.chain'_cons']
      refine ⟨?_, ih (i + 1)⟩
      intro y hy
      obtain ⟨j, hj, hts⟩ := followRecs_head_ts s clock t (i + 1) y hy
      rw [hts]
      exact hmono i j (by omega)

theorem truncRec_eq_self (r : Data) (h : r.timestamp % 1000000 = 0) : truncRec r = r := by
  obtain ⟨k, hk⟩ := Int.dvd_of_emod_eq_zero h
  unfold truncRec
  cases r with
  | mk s t m =>
    simp only at hk ⊢
    subst hk
    rw [Int.mul_tdiv_cancel_left k (by norm_num)]
    simp [Int.mul_comm]

/-! ## Claim theorems -/

/-- Record 1 of the `Read` counterexample file; its encoded line is 101 bytes. -/
def bugRec1 : Data := ⟨1, 0, List.replicate 80 97⟩

/-- Record 2 of the `Read` counterexample file; its encoded line is 86 bytes. -/
def bugRec2 : Data := ⟨2, 0, List.replicate 65 97⟩

/-- Record 3 of the `Read` counterexample file; its encoded line is 114 bytes. -/
def bugRec3 : Data := ⟨1, 0, List.replicate 93 97⟩

/-- Record 4 of the `Read` counterexample file; its encoded line is 399 bytes. -/
def bugRec4 : Data := ⟨2, 0, List.replicate 378 97⟩

/-- A 700-byte log file of 4 records whose third newline (offset 300) lies in
the overlap of the two backward blocks [188, 700) and [0, 512). -/
def bugFile : List Nat := encodeAll [bugRec1, bugRec2, bugRec3, bugRec4]

set_option maxRecDepth 1000000

/-- C1: the claim says `Read(N, ch)` with `0 < N < K` delivers exactly the last
`N` of the `K` persisted records. The backward block scan re-reads the byte
range `[size - 512, 512)` when `512 < size < 1024`, so newlines there are
counted twice; on this 700-byte file holding `K = 4` records, `Read(2)`
delivers only the last one record instead of the last two. -/
theorem C1_read_lastN_overlap_bug :
    bugFile.length = 700 ∧ countNl bugFile = 4 ∧
    readLog 2 (some bugFile) = ⟨[bugRec4], true, true⟩ ∧
    (readLog 2 (some bugFile)).delivered ≠ [bugRec3, bugRec4] := by
  decide

/-- C2 counterexample: at aggregate creation the listener registry is empty, so
no persistence subscriber (wildcard or otherwise) exists then; the subscriber
that `Follow(5, r)`'s spawned `watch` registers is keyed by stream 5, not by
the wildcard key -1. -/
theorem C2_no_wildcard_watcher_counterexample :
    (NewLog none).listeners = [] ∧
    (watchStart 5 0 (NewLog none)).listeners = [(5, 0)] := by
  decide

/-- C2 amended: the aggregate is created with no persistence subscriber; each
`Follow` call spawns its own `watch` subscriber registered under that call's
stream id, and that subscriber appends every record it receives to the sink,
in receive order. -/
theorem C2_per_follow_watcher (l? : Option Lumberjack) (s : Int) (ch : Nat)
    (st : LogState) (ds : List Data) :
    (NewLog l?).listeners = [] ∧
    (s, ch) ∈ (watchStart s ch st).listeners ∧
    (watchRun ds st).file = st.file ++ encodeAll ds :=
  ⟨NewLog_listeners l?, watchStart_mem s ch st, watchRun_file ds st⟩

/-- C3: decoding the encoded line of any record yields the same stream id, the
same message content (empty, non-ASCII and escaped scalar values included),
and the timestamp truncated to millisecond precision. -/
theorem C3_encode_decode_roundtrip (d : Data) :
    decodeLine (encodeLine d) =
      some ⟨d.stream, d.timestamp.tdiv 1000000 * 1000000, d.message⟩ :=
  decode_encode d

/-- C4: `Read(0, ch)` on a file of persisted records delivers every record, in
persisted order, and then closes the channel (records carry millisecond
timestamps once persisted, hence the divisibility hypothesis). -/
theorem C4_read_zero_all (rs : List Data)
    (h : ∀ r ∈ rs, r.timestamp % 1000000 = 0) :
    readLog 0 (some (encodeAll rs)) = ⟨rs, true, true⟩ := by
  have hmap : ∀ l : List Data, (∀ r ∈ l, r.timestamp % 1000000 = 0) →
      l.map truncRec = l := by
    intro l hl
    induction l with
    | nil => rfl
    | cons a t ih =>
      rw [List.map_cons, truncRec_eq_self a (hl a (by simp)),
        ih (fun r hr => hl r (by simp [hr]))]
  have hred : readLog 0 (some (encodeAll rs)) =
      parseLinesAux ((encodeAll rs).length + 1) (encodeAll rs) [] := rfl
  rw [hred]
  have hlen : rs.length < (encodeAll rs).length + 1 := by
    have := length_encodeAll_ge rs
    omega
  have hp := parseLinesAux_encodeAll rs ((encodeAll rs).length + 1) [] [] hlen
  rw [List.append_nil] at hp
  rw [hp, parseLinesAux]
  simp [hmap rs h]

/-- C4 witness: a concrete two-record file is delivered whole, in order, with
the channel closed. -/
theorem C4_read_zero_all_witness :
    readLog 0 (some (encodeAll [⟨1, 0, [97]⟩, ⟨2, 1000000, []⟩])) =
      ⟨[⟨1, 0, [97]⟩, ⟨2, 1000000, []⟩], true, true⟩ :=
  C4_read_zero_all [⟨1, 0, [97]⟩, ⟨2, 1000000, []⟩] (by decide)

theorem mem_chansOf (reg : List (Int × Nat)) (k : Int) (ch : Nat) :
    ch ∈ chansOf reg k ↔ (k, ch) ∈ reg := by
  unfold chansOf
  rw [List.mem_filterMap]
  constructor
  · rintro ⟨⟨a, b⟩, hm, hif⟩
    dsimp only at hif
    by_cases hk : a = k
    · rw [if_pos hk] at hif
      obtain rfl : b = ch := by injection hif
      rw [← hk]
      exact hm
    · rw [if_neg hk] at hif
      cases hif
  · intro hm
    exact ⟨(k, ch), hm, by simp⟩

/-- C5: a broadcast of record `r` reaches exactly the channels registered
under the wildcard key -1 or under `r`'s stream key, and no others. -/
theorem C5_broadcast_targets (reg : List (Int × Nat)) (d : Data) (ch : Nat) :
    ch ∈ sendData reg d ↔ ((-1 : Int), ch) ∈ reg ∨ (d.stream, ch) ∈ reg := by
  unfold sendData
  rw [List.mem_append, mem_chansOf, mem_chansOf]

/-- A registry state with the same channel (7) registered under two keys,
reachable through two `AddListener` calls. -/
def dupChanState : LogState := addListener 2 7 (addListener 1 7 (NewLog none))

/-- C6 counterexample: with channel 7 registered under keys 1 and 2, `Close`
closes it once per registration — twice, not exactly once as claimed (in Go,
the second `close` of a channel panics). -/
theorem C6_close_twice_counterexample :
    (closeLog dupChanState).2.count 7 = 2 ∧
    ¬(closeLog dupChanState).2.count 7 = 1 := by
  decide

/-- C6 amended: `Close` closes precisely the registered channels, one close
per registration, and closes the sink; when no channel is registered under
two keys, every registered channel is closed exactly once. -/
theorem C6_close_each_registration (st : LogState)
    (h : (st.listeners.map (·.2)).Nodup) :
    (closeLog st).2 = st.listeners.map (·.2) ∧
    (∀ ch ∈ st.listeners.map (·.2), (closeLog st).2.count ch = 1) ∧
    (closeLog st).1.sinkClosed = true := by
  refine ⟨rfl, ?_, rfl⟩
  intro ch hch
  exact List.count_eq_one_of_mem h hch

/-- C6 witness: two distinct channels under two keys are each closed exactly
once and the sink ends up closed. -/
theorem C6_close_each_registration_witness :
    (closeLog (addListener 2 6 (addListener 1 5 (NewLog none)))).2 =
      [5, 6] ∧
    (∀ ch ∈ [5, 6],
      (closeLog (addListener 2 6 (addListener 1 5 (NewLog none)))).2.count ch = 1) ∧
    (closeLog (addListener 2 6 (addListener 1 5 (NewLog none)))).1.sinkClosed = true := by
  have hmap : (addListener 2 6 (addListener 1 5 (NewLog none))).listeners.map (·.2) =
      [5, 6] := by decide
  have h := C6_close_each_registration
    (addListener 2 6 (addListener 1 5 (NewLog none))) (by rw [hmap]; decide)
  rw [hmap] at h
  exact h

/-- C7: over any chunk sequence a followed source yields (each chunk at most
the 32 KiB buffer), `Follow` broadcasts one record per non-empty chunk whose
message is exactly that chunk, the concatenation of the broadcast messages
equals the bytes read, and with a monotone clock the timestamps are
non-decreasing within the stream. -/
theorem C7_follow_chunks (s : Int) (clock : Nat → Int) (chunks : List (List Nat))
    (hcap : ∀ c ∈ chunks, c.length ≤ 32 * 1024)
    (hmono : ∀ i j : Nat, i ≤ j → clock i ≤ clock j) :
    (followRecs s clock 0 chunks).map Data.message =
      chunks.filter (fun c => decide (c ≠ [])) ∧
    ((followRecs s clock 0 chunks).map Data.message).flatten = chunks.flatten ∧
    List.Chain' (fun a b => a.timestamp ≤ b.timestamp)
      (followRecs s clock 0 chunks) := by
  refine ⟨followRecs_messages s clock 0 chunks, ?_, followRecs_chain s clock hmono chunks 0⟩
  rw [followRecs_messages s clock 0 chunks]
  exact flatten_filter_ne_nil chunks

/-- C7 witness: three chunks (one empty) with the identity clock; chunk sizes
are within the 32 KiB cap, messages are the two non-empty chunks whose
concatenation is the bytes read, and timestamps are non-decreasing. -/
theorem C7_follow_chunks_witness :
    (followRecs 1 (fun i => (i : Int)) 0 [[97], [], [98]]).map Data.message =
      [[97], [98]] ∧
    ((followRecs 1 (fun i => (i : Int)) 0 [[97], [], [98]]).map Data.message).flatten =
      [97, 98] ∧
    List.Chain' (fun a b => a.timestamp ≤ b.timestamp)
      (followRecs 1 (fun i => (i : Int)) 0 [[97], [], [98]]) := by
  have h := C7_follow_chunks 1 (fun i => (i : Int)) [[97], [], [98]]
    (by decide) (fun i j hij => Int.ofNat_le.mpr hij)
  exact ⟨by rw [h.1]; decide, by rw [h.2.1]; decide, h.2.2⟩

/-- C8: a line that fails to decode aborts `Read` with the decode error: the
records before it are delivered, the bad line's record is not, the call
returns the error, and the channel is not closed. -/
theorem C8_decode_error_no_close (rs : List Data) (junk : List Nat)
    (hne : junk ≠ []) (hnl : (10 : Nat) ∉ junk) (hbad : decodeLine junk = none) :
    readLog 0 (some (encodeAll rs ++ junk)) = ⟨rs.map truncRec, false, false⟩ := by
  have hred : readLog 0 (some (encodeAll rs ++ junk)) =
      parseLinesAux ((encodeAll rs ++ junk).length + 1) (encodeAll rs ++ junk) [] := rfl
  rw [hred]
  have hlen1 := length_encodeAll_ge rs
  have hlen2 : (encodeAll rs ++ junk).length =
      (encodeAll rs).length + junk.length := List.length_append _ _
  rw [parseLinesAux_encodeAll rs ((encodeAll rs ++ junk).length + 1) [] junk (by omega)]
  obtain ⟨f, hf⟩ : ∃ f, (encodeAll rs ++ junk).length + 1 - rs.length = f + 1 :=
    ⟨(encodeAll rs ++ junk).length - rs.length, by omega⟩
  rw [hf]
  obtain ⟨c, t, rfl⟩ : ∃ c t, junk = c :: t := by
    cases junk with
    | nil => exact absurd rfl hne
    | cons c t => exact ⟨c, t, rfl⟩
  rw [parseLinesAux, splitLine_no_nl (c :: t) hnl]
  simp only [hbad]
  simp

/-- C8 witness: a one-record file followed by the undecodable line `xyz`
yields the one good record, an error, and an unclosed channel. -/
theorem C8_decode_error_no_close_witness :
    readLog 0 (some (encodeAll [⟨1, 0, [97]⟩] ++ [120, 121, 122])) =
      ⟨[⟨1, 0, [97]⟩], false, false⟩ := by
  have h := C8_decode_error_no_close [⟨1, 0, [97]⟩] [120, 121, 122]
    (by decide) (by decide) (by decide)
  simpa using h

/-- C9: `Write(r)` appends exactly one encoded line for `r` to the sink and
bypasses fanout: no channel receives the record and the listener registry is
unchanged. -/
theorem C9_write_bypasses_fanout (d : Data) (st : LogState) :
    (writeOp d st).1.listeners = st.listeners ∧
    (writeOp d st).2 = [] ∧
    (writeOp d st).1.file = st.file ++ encodeLine d ∧
    countNl (encodeLine d) = 1 :=
  ⟨rfl, rfl, rfl, countNl_encodeLine d⟩

/-- C10 counterexample: `NewLog` only replaces a maximum size that is exactly
zero, so a negative configured maximum size survives and the resulting sink's
maximum size is not positive. -/
theorem C10_negative_maxsize_counterexample :
    (NewLog (some ⟨-1⟩)).maxSize = -1 ∧ ¬0 < (NewLog (some ⟨-1⟩)).maxSize := by
  decide

/-- C10 amended: `NewLog` substitutes a fresh zero-valued logger for nil and
replaces a zero maximum size by 100 megabytes, so whenever the given maximum
size is nonnegative (nil included) the result is an open aggregate with an
empty registry and a positive maximum size. -/
theorem C10_newlog_defaults (l? : Option Lumberjack)
    (h : ∀ l0 ∈ l?, 0 ≤ l0.maxSize) :
    0 < (NewLog l?).maxSize ∧
    (NewLog l?).listeners = [] ∧
    (NewLog l?).sinkClosed = false ∧
    (NewLog none).maxSize = 100 * lumberjackMegabyte ∧
    (∀ l0 ∈ l?, l0.maxSize = 0 → (NewLog l?).maxSize = 100 * lumberjackMegabyte) := by
  refine ⟨?_, rfl, rfl, by decide, ?_⟩
  · cases l? with
    | none => decide
    | some l0 =>
      have h0 := h l0 rfl
      simp only [NewLog]
      split_ifs with hz
      · decide
      · simpa using lt_of_le_of_ne h0 (fun he => hz he.symm)
  · intro l0 hl0 hz
    cases l? with
    | none => decide
    | some l1 =>
      rw [Option.mem_def, Option.some.injEq] at hl0
      subst hl0
      simp only [NewLog]
      rw [if_pos hz]

/-- C10 witness: a logger with maximum size 5 keeps it, and the open/empty
invariants hold; the nil default is 100 megabytes. -/
theorem C10_newlog_defaults_witness :
    0 < (NewLog (some ⟨5⟩)).maxSize ∧
    (NewLog (some ⟨5⟩)).listeners = [] ∧
    (NewLog (some ⟨5⟩)).sinkClosed = false ∧
    (NewLog none).maxSize = 100 * lumberjackMegabyte := by
  have h := C10_newlog_defaults (some ⟨5⟩)
    (by intro l0 hl0; rw [Option.mem_def, Option.some.injEq] at hl0; subst hl0; decide)
  exact ⟨h.1, h.2.1, h.2.2.1, h.2.2.2.1⟩

end Logbuf
